import Mathlib

/-!
Verification of `macroeco.py` (macroecotools).

Shallow embedding conventions:
* Numeric arrays become `List α` over a `LinearOrderedField α` (instantiated at
  `ℚ` for concrete evaluation and at `ℝ` where real transcendental functions
  are involved).
* `numpy.log10` is abstracted as an explicit function argument `lg : α → α`
  (at `ℝ` one may take `Real.logb 10`); none of the claims depend on a
  particular property of `log10` except through the formulas themselves.
* Python's `set` of coordinate pairs becomes `List.dedup` of the zipped list:
  one entry per distinct pair (iteration order of a Python set is
  unspecified, so no claim depends on the order of unique points).
* Plotting side effects are dropped; functions return the data they would
  plot.  The in-place `list.sort` of `plot_rad` is modelled by explicit state
  passing: the embedded function returns the final state of the caller's
  list.
-/

section Macroeco

variable {α : Type*} [LinearOrderedField α]

/-- Neighborhood predicate of `count_pts_within_radius` (macroeco.py lines
89-94): in log mode `(log10 x - log10 a)^2 + (log10 y - log10 b)^2 ≤
(log10 radius)^2`, otherwise `(x - a)^2 + (y - b)^2 ≤ radius^2`.  `lg`
abstracts `numpy.log10`. -/
def neighbor_test (lg : α → α) (logscale : Bool) (radius a b : α) (p : α × α) : Bool :=
  if logscale then
    decide ((lg p.1 - lg a) ^ 2 + (lg p.2 - lg b) ^ 2 ≤ lg radius ^ 2)
  else
    decide ((p.1 - a) ^ 2 + (p.2 - b) ^ 2 ≤ radius ^ 2)

/-- Embedding of `count_pts_within_radius(x, y, radius, logscale)`
(macroeco.py lines 76-96): zip the coordinate arrays, keep one entry per
distinct pair, and record for each unique pair the number of input points
within the radius. -/
def count_pts_within_radius (lg : α → α) (logscale : Bool) (x y : List α)
    (radius : α) : List (α × α × ℕ) :=
  let raw_data := x.zip y
  let unique_points := raw_data.dedup
  unique_points.map (fun q =>
    (q.1, q.2, (raw_data.filter (neighbor_test lg logscale radius q.1 q.2)).length))

lemma neighbor_test_self (lg : α → α) (logscale : Bool) (radius a b : α) :
    neighbor_test lg logscale radius a b (a, b) = true := by
  cases logscale <;>
    simp [neighbor_test, sub_self, zero_pow, sq_nonneg]

lemma count_pts_within_radius_count (lg : α → α) (logscale : Bool)
    (x y : List α) (radius : α) :
    ∀ t ∈ count_pts_within_radius lg logscale x y radius,
      t.2.2 = (x.zip y).countP (neighbor_test lg logscale radius t.1 t.2.1) := by
  intro t ht
  simp only [count_pts_within_radius, List.mem_map] at ht
  obtain ⟨q, _, rfl⟩ := ht
  simp [List.countP_eq_length_filter]

lemma count_pts_within_radius_pos (lg : α → α) (logscale : Bool)
    (x y : List α) (radius : α) :
    ∀ t ∈ count_pts_within_radius lg logscale x y radius, 1 ≤ t.2.2 := by
  intro t ht
  simp only [count_pts_within_radius, List.mem_map] at ht
  obtain ⟨q, hq, rfl⟩ := ht
  have hqz : q ∈ x.zip y := List.mem_dedup.mp hq
  have hqf : q ∈ (x.zip y).filter (neighbor_test lg logscale radius q.1 q.2) := by
    refine List.mem_filter.mpr ⟨hqz, ?_⟩
    have := neighbor_test_self lg logscale radius q.1 q.2
    simpa using this
  have : 0 < ((x.zip y).filter (neighbor_test lg logscale radius q.1 q.2)).length :=
    List.length_pos.mpr (List.ne_nil_of_mem hqf)
  simpa using this

lemma count_pts_within_radius_pairs (lg : α → α) (logscale : Bool)
    (x y : List α) (radius : α) :
    (count_pts_within_radius lg logscale x y radius).map (fun t => (t.1, t.2.1))
      = (x.zip y).dedup := by
  simp [count_pts_within_radius, List.map_map, Function.comp_def]

/-- C1: `count_pts_within_radius` returns exactly one triple per distinct
coordinate pair occurring in `zip x y`, and each triple's count is the number
of input points satisfying the circular-neighborhood predicate: the linear
one `(x-a)^2 + (y-b)^2 ≤ radius^2` when logscale is off, the log-space one
`(lg x - lg a)^2 + (lg y - lg b)^2 ≤ (lg radius)^2` (with `lg` embedding
`log10`) when logscale is on. -/
theorem count_pts_within_radius_spec (lg : α → α) (logscale : Bool)
    (x y : List α) (radius : α) (hlen : x.length = y.length) :
    ((count_pts_within_radius lg logscale x y radius).map
        (fun t => (t.1, t.2.1))).Nodup ∧
    (∀ a b : α, (∃ n, (a, b, n) ∈ count_pts_within_radius lg logscale x y radius)
        ↔ (a, b) ∈ x.zip y) ∧
    (∀ t ∈ count_pts_within_radius lg logscale x y radius,
      (logscale = false →
        t.2.2 = (x.zip y).countP
          (fun p => decide ((p.1 - t.1) ^ 2 + (p.2 - t.2.1) ^ 2 ≤ radius ^ 2))) ∧
      (logscale = true →
        t.2.2 = (x.zip y).countP
          (fun p => decide ((lg p.1 - lg t.1) ^ 2 + (lg p.2 - lg t.2.1) ^ 2
            ≤ lg radius ^ 2)))) := by
  refine ⟨?_, ?_, ?_⟩
  · rw [count_pts_within_radius_pairs]
    exact List.nodup_dedup _
  · intro a b
    constructor
    · rintro ⟨n, hn⟩
      have : (a, b) ∈ (count_pts_within_radius lg logscale x y radius).map
          (fun t => (t.1, t.2.1)) := by
        exact List.mem_map.mpr ⟨(a, b, n), hn, rfl⟩
      rw [count_pts_within_radius_pairs] at this
      exact List.mem_dedup.mp this
    · intro hab
      refine ⟨((x.zip y).filter
          (neighbor_test lg logscale radius a b)).length, ?_⟩
      simp only [count_pts_within_radius, List.mem_map]
      exact ⟨(a, b), List.mem_dedup.mpr hab, rfl⟩
  · intro t ht
    have hc := count_pts_within_radius_count lg logscale x y radius t ht
    constructor
    · rintro rfl
      simpa [neighbor_test] using hc
    · rintro rfl
      simpa [neighbor_test] using hc

/-- C5: on `x = [1,1,1]`, `y = [2,2,2]`, `radius = 1` in linear mode,
`count_pts_within_radius` returns exactly the single triple `(1, 2, 3)`. -/
theorem count_pts_within_radius_duplicated_point :
    count_pts_within_radius (fun v => v) false [(1 : ℚ), 1, 1] [2, 2, 2] 1
      = [(1, 2, 3)] := by
  norm_num [count_pts_within_radius, neighbor_test, List.dedup_cons_of_mem,
    List.filter]

/-- Descending sort as computed by `get_rad_data` (macroeco.py line 35):
`-1 * np.sort(-1 * Ns)`. -/
def Ns_sorted_desc (Ns : List α) : List α :=
  ((Ns.map (fun v => -1 * v)).insertionSort (· ≤ ·)).map (fun v => -1 * v)

/-- Embedding of `get_rad_data(Ns)` (macroeco.py lines 32-38): sort the
abundances descending, divide by the total, and pair with the ranks
`range(1, len(Ns) + 1)`. -/
def get_rad_data (Ns : List α) : List ℕ × List α :=
  (List.range' 1 Ns.length,
    (Ns_sorted_desc Ns).map (fun v => v / (Ns_sorted_desc Ns).sum))

/-- Embedding of the effect of `plot_rad(Ns)` (macroeco.py lines 24-30) on the
caller's list: `Ns.sort(reverse=True)` mutates the list in place, so the
returned value is the final state of the caller's list. -/
def plot_rad (Ns : List α) : List α :=
  Ns.insertionSort (· ≥ ·)

/-- State-passing form of `get_rad_data`: the source rebinds `Ns` to a fresh
`np.array` copy and never mutates the caller's list, so the final state of
the caller's list is the input itself, alongside the returned data. -/
def get_rad_data_st (Ns : List α) : List α × (List ℕ × List α) :=
  (Ns, get_rad_data Ns)

lemma sum_map_div (l : List α) (k : α) :
    (l.map (fun v => v / k)).sum = l.sum / k := by
  induction l with
  | nil => simp
  | cons a l ih => simp [ih, add_div]

lemma descending_sort_perm (Ns : List α) :
    List.Perm (Ns_sorted_desc Ns) Ns := by
  have h1 := (List.perm_insertionSort (· ≤ ·) (Ns.map (fun v => -1 * v))).map
    (fun v => -1 * v)
  simpa [Ns_sorted_desc, List.map_map, Function.comp_def, neg_mul,
    neg_neg] using h1

lemma descending_sort_sorted (Ns : List α) :
    List.Sorted (· ≥ ·) (Ns_sorted_desc Ns) := by
  have hs := List.sorted_insertionSort (· ≤ ·) (Ns.map (fun v => -1 * v))
  refine List.pairwise_map.mpr (hs.imp ?_)
  intro a b hab
  simpa using neg_le_neg hab

/-- C4: for a non-empty abundance vector with positive sum, `get_rad_data`
returns ranks `1, 2, ..., S` in ascending order and a relative-abundance
sequence of the same length that is non-increasing, sums to 1, and consists
of the sorted abundances each divided by the total abundance. -/
theorem get_rad_data_spec (Ns : List α) (hne : Ns ≠ []) (hsum : 0 < Ns.sum) :
    (get_rad_data Ns).1 = List.range' 1 Ns.length ∧
    (get_rad_data Ns).2.length = Ns.length ∧
    List.Sorted (· ≥ ·) (get_rad_data Ns).2 ∧
    (get_rad_data Ns).2.sum = 1 ∧
    List.Perm (get_rad_data Ns).2 (Ns.map (fun v => v / Ns.sum)) := by
  have hperm := descending_sort_perm Ns
  have hsorted := descending_sort_sorted Ns
  have hDsum : (Ns_sorted_desc Ns).sum = Ns.sum := hperm.sum_eq
  have hpos : (0 : α) < (Ns_sorted_desc Ns).sum := hDsum ▸ hsum
  refine ⟨rfl, ?_, ?_, ?_, ?_⟩
  · simp [get_rad_data, hperm.length_eq]
  · refine List.pairwise_map.mpr (hsorted.imp ?_)
    intro a b hab
    exact div_le_div_of_nonneg_right hab hpos.le
  · show ((Ns_sorted_desc Ns).map (fun v => v / (Ns_sorted_desc Ns).sum)).sum = 1
    rw [sum_map_div, div_self (ne_of_gt hpos)]
  · show List.Perm
      ((Ns_sorted_desc Ns).map (fun v => v / (Ns_sorted_desc Ns).sum))
      (Ns.map (fun v => v / Ns.sum))
    rw [hDsum]
    exact hperm.map (fun v => v / Ns.sum)

/-- C8: `get_rad_data` leaves the caller's abundance vector unchanged, while
`plot_rad` sorts the caller-supplied list in place: afterwards the list is
the descending permutation of its original contents. -/
theorem plot_rad_mutates_get_rad_data_does_not (Ns : List α) :
    (get_rad_data_st Ns).1 = Ns ∧
    List.Perm (plot_rad Ns) Ns ∧
    List.Sorted (· ≥ ·) (plot_rad Ns) :=
  ⟨rfl, List.perm_insertionSort _ Ns, List.sorted_insertionSort _ Ns⟩

/-- Embedding of `e_var(abundance_data)` (macroeco.py lines 148-166), the
Smith and Wilson evenness index.  `ln`, `arctan` and `pi` abstract `np.log`,
`np.arctan` and `np.pi`; the claims are settled at `Real.log`,
`Real.arctan` and `Real.pi`. -/
def e_var (ln arctan : α → α) (pi : α) (abundance_data : List α) : α :=
  let S := abundance_data.length
  let ln_nj_over_S := abundance_data.map (fun n => ln n / (S : α))
  let ln_ni_minus_above :=
    abundance_data.map (fun n => (ln n - ln_nj_over_S.sum) ^ 2)
  1 - 2 / pi * arctan (ln_ni_minus_above.sum / (S : α))

/-- Embedding of `np.mean`. -/
def mean (l : List α) : α := l.sum / l.length

/-- Embedding of `obs_pred_rsquare(obs, pred)` (macroeco.py lines 168-170). -/
def obs_pred_rsquare (obs pred : List α) : α :=
  1 - ((obs.zip pred).map (fun p => (p.1 - p.2) ^ 2)).sum
      / (obs.map (fun o => (o - mean obs) ^ 2)).sum

lemma map_div_sum_comm (f : α → α) (l : List α) (k : α) :
    (l.map (fun n => f n / k)).sum = (l.map f).sum / k := by
  induction l with
  | nil => simp
  | cons a l ih => simp [ih, add_div]

/-- C6: `e_var` computes exactly
`1 - (2/pi) * arctan( (sum_i (ln n_i - (sum_j ln n_j)/S)^2) / S )`, and on a
vector of all-equal abundances it returns exactly 1. -/
theorem e_var_spec (ns : List ℝ) (hne : ns ≠ []) :
    e_var Real.log Real.arctan Real.pi ns
      = 1 - 2 / Real.pi * Real.arctan
          ((ns.map (fun n =>
            (Real.log n - (ns.map Real.log).sum / ns.length) ^ 2)).sum
            / ns.length) ∧
    (∀ c : ℝ, (∀ n ∈ ns, n = c) → e_var Real.log Real.arctan Real.pi ns = 1) := by
  have hformula : e_var Real.log Real.arctan Real.pi ns
      = 1 - 2 / Real.pi * Real.arctan
          ((ns.map (fun n =>
            (Real.log n - (ns.map Real.log).sum / ns.length) ^ 2)).sum
            / ns.length) := by
    simp only [e_var]
    rw [map_div_sum_comm]
  refine ⟨hformula, ?_⟩
  intro c hc
  have hlenpos : (0 : ℝ) < ns.length := by
    exact_mod_cast List.length_pos.mpr hne
  have hlog : ns.map Real.log = ns.map (fun _ => Real.log c) := by
    refine List.map_congr_left ?_
    intro n hn
    rw [hc n hn]
  have hlogsum : (ns.map Real.log).sum = ns.length * Real.log c := by
    rw [hlog, List.map_const', List.sum_replicate, nsmul_eq_mul]
  have hinner : (ns.map (fun n =>
      (Real.log n - (ns.map Real.log).sum / ns.length) ^ 2)).sum = 0 := by
    refine List.sum_eq_zero ?_
    intro t ht
    obtain ⟨n, hn, rfl⟩ := List.mem_map.mp ht
    rw [hc n hn, hlogsum, mul_div_cancel_left₀ _ (ne_of_gt hlenpos), sub_self]
    simp
  rw [hformula, hinner, zero_div, Real.arctan_zero, mul_zero, sub_zero]

lemma sum_map_eq_sum_range (l : List α) (f : α → α) :
    (l.map f).sum = ∑ i ∈ Finset.range l.length, f (l.getD i 0) := by
  induction l with
  | nil => simp
  | cons a l ih =>
    rw [List.map_cons, List.sum_cons, ih, List.length_cons,
      Finset.sum_range_succ']
    simp [add_comm]

lemma sum_zip_map_eq_sum_range (l₁ l₂ : List α) (f : α → α → α)
    (h : l₁.length = l₂.length) :
    ((l₁.zip l₂).map (fun p => f p.1 p.2)).sum
      = ∑ i ∈ Finset.range l₁.length, f (l₁.getD i 0) (l₂.getD i 0) := by
  induction l₁ generalizing l₂ with
  | nil => simp
  | cons a l ih =>
    cases l₂ with
    | nil => simp at h
    | cons b l₂ =>
      rw [List.zip_cons_cons, List.map_cons, List.sum_cons,
        ih l₂ (by simpa using h), List.length_cons, Finset.sum_range_succ']
      simp [add_comm]

lemma zip_self_fst_eq_snd (l : List α) : ∀ p ∈ l.zip l, p.1 = p.2 := by
  induction l with
  | nil => simp
  | cons a l ih =>
    intro p hp
    rw [List.zip_cons_cons] at hp
    rcases List.mem_cons.mp hp with h | h
    · rw [h]
    · exact ih p h

lemma sum_sq_zero_iff (l : List α) (m : α) :
    (l.map (fun o => (o - m) ^ 2)).sum = 0 ↔ ∀ o ∈ l, o = m := by
  induction l with
  | nil => simp
  | cons a l ih =>
    simp only [List.map_cons, List.sum_cons, List.mem_cons]
    constructor
    · intro h
      have h1 : (0 : α) ≤ (a - m) ^ 2 := sq_nonneg _
      have h2 : (0 : α) ≤ (l.map (fun o => (o - m) ^ 2)).sum := by
        refine List.sum_nonneg ?_
        intro t ht
        obtain ⟨o, _, rfl⟩ := List.mem_map.mp ht
        exact sq_nonneg _
      have hz := (add_eq_zero_iff_of_nonneg h1 h2).mp h
      have ha : a = m := by
        have := pow_eq_zero_iff (n := 2) (by norm_num) |>.mp hz.1
        exact sub_eq_zero.mp this
      refine fun o ho => ?_
      rcases ho with rfl | ho
      · exact ha
      · exact (ih.mp hz.2) o ho
    · intro h
      have ha : (a - m) ^ 2 = 0 := by
        rw [h a (Or.inl rfl), sub_self]
        simp
      rw [ha, zero_add]
      exact ih.mpr (fun o ho => h o (Or.inr ho))

/-- C7: `obs_pred_rsquare` computes
`1 - (Σ_i (obs_i - pred_i)^2) / (Σ_i (obs_i - mean obs)^2)`; on a perfect
fit it returns exactly 1; and the denominator it divides by is zero exactly
in the no-variance case (all observations equal to their mean), which is the
failing division the claim describes. -/
theorem obs_pred_rsquare_spec (obs pred : List α)
    (hlen : obs.length = pred.length)
    (hvar : ∃ a ∈ obs, ∃ b ∈ obs, a ≠ b) :
    (obs.map (fun o => (o - mean obs) ^ 2)).sum ≠ 0 ∧
    obs_pred_rsquare obs pred
      = 1 - (∑ i ∈ Finset.range obs.length,
            (obs.getD i 0 - pred.getD i 0) ^ 2)
          / (∑ i ∈ Finset.range obs.length, (obs.getD i 0 - mean obs) ^ 2) ∧
    obs_pred_rsquare obs obs = 1 ∧
    (∀ v : List α, (∀ o ∈ v, o = mean v) →
      (v.map (fun o => (o - mean v) ^ 2)).sum = 0) := by
  refine ⟨?_, ?_, ?_, ?_⟩
  · intro h0
    obtain ⟨a, ha, b, hb, hab⟩ := hvar
    have hall := (sum_sq_zero_iff obs (mean obs)).mp h0
    exact hab ((hall a ha).trans (hall b hb).symm)
  · rw [obs_pred_rsquare,
      sum_zip_map_eq_sum_range obs pred (fun u v => (u - v) ^ 2) hlen,
      sum_map_eq_sum_range]
  · have hnum : ((obs.zip obs).map (fun p => (p.1 - p.2) ^ 2)).sum = 0 := by
      refine List.sum_eq_zero ?_
      intro t ht
      obtain ⟨p, hp, rfl⟩ := List.mem_map.mp ht
      rw [zip_self_fst_eq_snd obs p hp, sub_self]
      simp
    rw [obs_pred_rsquare, hnum, zero_div, sub_zero]
  · intro v hv
    exact (sum_sq_zero_iff v (mean v)).mpr hv

/-- Embedding of `np.cumsum`: running sums of a list of counts. -/
def cumsum : List ℕ → List ℕ
  | [] => []
  | c :: cs => c :: (cumsum cs).map (fun t => c + t)

/-- Count triples sorted descending by count, as computed at macroeco.py
line 131 (`sorted(count_data, key=lambda point: point[2], reverse=True)`). -/
def sorted_count_data (lg : α → α) (logscale : Bool) (x y : List α)
    (radius : α) : List (α × α × ℕ) :=
  (count_pts_within_radius lg logscale x y radius).insertionSort
    (fun p q => q.2.2 ≤ p.2.2)

/-- Total of the neighbor counts (macroeco.py line 132). -/
def total_count (lg : α → α) (logscale : Bool) (x y : List α)
    (radius : α) : ℕ :=
  ((sorted_count_data lg logscale x y radius).map (fun t => t.2.2)).sum

/-- Cumulative proportions of the counts in descending order (macroeco.py
lines 133-134). -/
def cum_proportions (lg : α → α) (logscale : Bool) (x y : List α)
    (radius : α) : List α :=
  (cumsum ((sorted_count_data lg logscale x y radius).map (fun t => t.2.2))).map
    (fun c : ℕ => (c : α) / (total_count lg logscale x y radius : α))

/-- Coordinate pairs of the descending-sorted count data (macroeco.py
line 135, `sorted_count_data[:, 0:2]`). -/
def sorted_points (lg : α → α) (logscale : Bool) (x y : List α)
    (radius : α) : List (α × α) :=
  (sorted_count_data lg logscale x y radius).map (fun t => (t.1, t.2.1))

/-- Boolean-mask selection of macroeco.py line 136:
`sorted_points[cum_proportion_of_counts <= confidence_int]`. -/
def confidence_points (lg : α → α) (logscale : Bool) (x y : List α)
    (radius confidence_int : α) : List (α × α) :=
  (((sorted_points lg logscale x y radius).zip
      (cum_proportions lg logscale x y radius)).filter
    (fun pc => decide (pc.2 ≤ confidence_int))).map (fun pc => pc.1)

/-- Cross product used by the convex-hull construction. -/
def cross_product (o a b : α × α) : α :=
  (a.1 - o.1) * (b.2 - o.2) - (a.2 - o.2) * (b.1 - o.1)

/-- Monotone-chain step: pop while the turn is not strictly convex, then push
the new point (the chain is kept in reverse order). -/
def hull_add (p : α × α) : List (α × α) → List (α × α)
  | b :: a :: rest =>
      if cross_product a b p ≤ 0 then hull_add p (a :: rest)
      else p :: b :: a :: rest
  | l => p :: l

/-- Half of a monotone-chain convex hull over an already sorted point list. -/
def hull_half (pts : List (α × α)) : List (α × α) :=
  (pts.foldl (fun acc p => hull_add p acc) []).reverse

/-- Modelled from the spec: `convhull.convex_hull` is imported by
macroeco.py (line 7) but the `convhull` module is not part of the sources
here.  Per the spec it is a generic 2D convex hull (any correct algorithm,
winding order unspecified; modelled with Andrew's monotone chain) and its
error condition is that an "insufficient points for hull" failure occurs
rather than attempting a hull on fewer than 3 points. -/
def convex_hull (pts : List (α × α)) : Except String (List (α × α)) :=
  if pts.length < 3 then Except.error "insufficient points for hull"
  else
    let ps := pts.insertionSort
      (fun p q => p.1 < q.1 ∨ (p.1 = q.1 ∧ p.2 ≤ q.2))
    let lower := hull_half ps
    let upper := hull_half ps.reverse
    Except.ok (lower.dropLast ++ upper.dropLast)

/-- Embedding of `confidence_hull` (macroeco.py lines 128-146): the convex
hull of the density-filtered point subset (plotting side effects dropped). -/
def confidence_hull (lg : α → α) (logscale : Bool) (x y : List α)
    (radius confidence_int : α) : Except String (List (α × α)) :=
  convex_hull (confidence_points lg logscale x y radius confidence_int)

/-- Embedding of the data plotted by `plot_color_by_pt_dens` (macroeco.py
lines 98-126): the count triples with the `loglog` flag passed through as
`logscale`, sorted ascending by count (line 114). -/
def plot_color_by_pt_dens (lg : α → α) (loglog : Bool) (x y : List α)
    (radius : α) : List (α × α × ℕ) :=
  (count_pts_within_radius lg loglog x y radius).insertionSort
    (fun p q => p.2.2 ≤ q.2.2)

lemma cumsum_length (l : List ℕ) : (cumsum l).length = l.length := by
  induction l with
  | nil => rfl
  | cons c cs ih => simp [cumsum, ih]

lemma cumsum_mem_pos (l : List ℕ) (h : ∀ c ∈ l, 0 < c) :
    ∀ t ∈ cumsum l, 0 < t := by
  induction l with
  | nil => simp [cumsum]
  | cons c cs ih =>
    intro t ht
    rcases List.mem_cons.mp ht with rfl | ht
    · exact h t (List.mem_cons_self _ _)
    · obtain ⟨u, _, rfl⟩ := List.mem_map.mp ht
      have hc := h c (List.mem_cons_self _ _)
      omega

lemma cumsum_pairwise_lt (l : List ℕ) (h : ∀ c ∈ l, 0 < c) :
    (cumsum l).Pairwise (· < ·) := by
  induction l with
  | nil => simp [cumsum]
  | cons c cs ih =>
    have htail : ∀ u ∈ cs, 0 < u := fun u hu => h u (List.mem_cons_of_mem _ hu)
    refine List.Pairwise.cons ?_ ?_
    · intro t ht
      obtain ⟨u, hu, rfl⟩ := List.mem_map.mp ht
      have := cumsum_mem_pos cs htail u hu
      omega
    · exact List.pairwise_map.mpr ((ih htail).imp (fun hab => by omega))

lemma cumsum_mem_le_sum (l : List ℕ) : ∀ t ∈ cumsum l, t ≤ l.sum := by
  induction l with
  | nil => simp [cumsum]
  | cons c cs ih =>
    intro t ht
    rcases List.mem_cons.mp ht with rfl | ht
    · simp
    · obtain ⟨u, hu, rfl⟩ := List.mem_map.mp ht
      have := ih u hu
      simp only [List.sum_cons]
      omega

lemma sorted_count_data_counts_pos (lg : α → α) (logscale : Bool)
    (x y : List α) (radius : α) :
    ∀ t ∈ sorted_count_data lg logscale x y radius, 1 ≤ t.2.2 := by
  intro t ht
  have hmem : t ∈ count_pts_within_radius lg logscale x y radius :=
    (List.perm_insertionSort _ _).mem_iff.mp ht
  exact count_pts_within_radius_pos lg logscale x y radius t hmem

lemma sorted_count_data_ne_nil (lg : α → α) (logscale : Bool)
    (x y : List α) (radius : α) (hne : x ≠ []) (hlen : x.length = y.length) :
    sorted_count_data lg logscale x y radius ≠ [] := by
  have hzlen : (x.zip y).length = x.length := by
    rw [List.length_zip, hlen, Nat.min_self]
  have hz : x.zip y ≠ [] := by
    intro h0
    rw [h0] at hzlen
    exact hne (List.length_eq_zero.mp hzlen.symm)
  have hd : (x.zip y).dedup ≠ [] := by
    intro h0
    exact hz ((List.dedup_eq_nil _).mp h0)
  have hc : count_pts_within_radius lg logscale x y radius ≠ [] := by
    intro h0
    refine hd ?_
    have := count_pts_within_radius_pairs lg logscale x y radius
    rw [h0] at this
    simpa using this.symm
  intro h0
  have hlen0 := (List.perm_insertionSort
    (fun p q : α × α × ℕ => q.2.2 ≤ p.2.2)
    (count_pts_within_radius lg logscale x y radius)).length_eq
  rw [show sorted_count_data lg logscale x y radius
      = (count_pts_within_radius lg logscale x y radius).insertionSort
        (fun p q => q.2.2 ≤ p.2.2) from rfl] at h0
  rw [h0] at hlen0
  exact hc (List.length_eq_zero.mp hlen0.symm)

lemma total_count_pos (lg : α → α) (logscale : Bool) (x y : List α)
    (radius : α) (hne : x ≠ []) (hlen : x.length = y.length) :
    0 < total_count lg logscale x y radius := by
  obtain ⟨t, ht⟩ :=
    List.exists_mem_of_ne_nil _ (sorted_count_data_ne_nil lg logscale x y radius hne hlen)
  have h1 : 1 ≤ t.2.2 := sorted_count_data_counts_pos lg logscale x y radius t ht
  have hmem : t.2.2 ∈ (sorted_count_data lg logscale x y radius).map
      (fun t => t.2.2) := List.mem_map.mpr ⟨t, ht, rfl⟩
  have hle : t.2.2 ≤ total_count lg logscale x y radius :=
    List.single_le_sum (fun _ _ => Nat.zero_le _) _ hmem
  omega

lemma cum_proportions_pairwise_lt (lg : α → α) (logscale : Bool)
    (x y : List α) (radius : α) (hne : x ≠ []) (hlen : x.length = y.length) :
    (cum_proportions lg logscale x y radius).Pairwise (· < ·) := by
  have hpos : ∀ c ∈ (sorted_count_data lg logscale x y radius).map
      (fun t => t.2.2), 0 < c := by
    intro c hc
    obtain ⟨t, ht, rfl⟩ := List.mem_map.mp hc
    exact sorted_count_data_counts_pos lg logscale x y radius t ht
  have htot : (0 : α) < (total_count lg logscale x y radius : α) := by
    exact_mod_cast total_count_pos lg logscale x y radius hne hlen
  refine List.pairwise_map.mpr ((cumsum_pairwise_lt _ hpos).imp ?_)
  intro a b hab
  rw [div_lt_div_iff_of_pos_right htot]
  exact_mod_cast hab

lemma filter_monotone_take {β : Type*} (p : β → Bool) (l : List β)
    (hmono : l.Pairwise (fun a b => p b = true → p a = true)) :
    ∃ k, l.filter p = l.take k := by
  induction l with
  | nil => exact ⟨0, rfl⟩
  | cons a l ih =>
    have ha := List.pairwise_cons.mp hmono
    obtain ⟨k, hk⟩ := ih ha.2
    by_cases hpa : p a = true
    · refine ⟨k + 1, ?_⟩
      rw [List.filter_cons_of_pos hpa, List.take_succ_cons, hk]
    · refine ⟨0, ?_⟩
      rw [List.filter_cons_of_neg (by simpa using hpa), List.take_zero]
      refine List.filter_eq_nil_iff.mpr ?_
      intro b hb hpb
      exact hpa (ha.1 b hb hpb)

lemma cum_proportions_length (lg : α → α) (logscale : Bool) (x y : List α)
    (radius : α) :
    (cum_proportions lg logscale x y radius).length
      = (sorted_points lg logscale x y radius).length := by
  simp [sorted_points, cum_proportions, cumsum_length]

lemma confidence_points_eq_take (lg : α → α) (logscale : Bool) (x y : List α)
    (radius conf : α) (hne : x ≠ []) (hlen : x.length = y.length) :
    ∃ k, confidence_points lg logscale x y radius conf
      = (sorted_points lg logscale x y radius).take k := by
  have hlen2 := cum_proportions_length lg logscale x y radius
  have hsnd : ((sorted_points lg logscale x y radius).zip
      (cum_proportions lg logscale x y radius)).map Prod.snd
      = cum_proportions lg logscale x y radius :=
    List.map_snd_zip _ _ (le_of_eq hlen2)
  have hpw0 := cum_proportions_pairwise_lt lg logscale x y radius hne hlen
  rw [← hsnd] at hpw0
  have hpw := List.pairwise_map.mp hpw0
  have hmono : ((sorted_points lg logscale x y radius).zip
      (cum_proportions lg logscale x y radius)).Pairwise
      (fun a b => decide (b.2 ≤ conf) = true → decide (a.2 ≤ conf) = true) := by
    refine hpw.imp ?_
    intro a b hab hb
    exact decide_eq_true (le_of_lt (lt_of_lt_of_le hab (of_decide_eq_true hb)))
  obtain ⟨k, hk⟩ :=
    filter_monotone_take (fun pc : (α × α) × α => decide (pc.2 ≤ conf)) _ hmono
  refine ⟨k, ?_⟩
  simp only [confidence_points]
  rw [hk, List.map_take]
  congr 1
  exact List.map_fst_zip _ _ (le_of_eq hlen2.symm)

lemma confidence_points_conf_one (lg : α → α) (logscale : Bool) (x y : List α)
    (radius : α) (hne : x ≠ []) (hlen : x.length = y.length) :
    confidence_points lg logscale x y radius 1
      = sorted_points lg logscale x y radius := by
  have hlen2 := cum_proportions_length lg logscale x y radius
  have htot : (0 : α) < (total_count lg logscale x y radius : α) := by
    exact_mod_cast total_count_pos lg logscale x y radius hne hlen
  have hall : ∀ pc ∈ (sorted_points lg logscale x y radius).zip
      (cum_proportions lg logscale x y radius),
      decide (pc.2 ≤ (1 : α)) = true := by
    intro pc hpc
    have h2 := (List.of_mem_zip hpc).2
    obtain ⟨c, hc, heq⟩ := List.mem_map.mp h2
    refine decide_eq_true ?_
    rw [← heq, div_le_one htot]
    exact_mod_cast cumsum_mem_le_sum _ c hc
  simp only [confidence_points]
  rw [List.filter_eq_self.mpr hall]
  exact List.map_fst_zip _ _ (le_of_eq hlen2.symm)

/-- C2: for non-empty input, the subset of points handed to the convex-hull
step is a prefix of the points sorted descending by neighbor count (the
less-than-or-equal cutoff on cumulative count fractions excludes everything
from the first overshooting point on), and with confidence_int = 1 every
unique point is selected. -/
theorem confidence_hull_selection (lg : α → α) (logscale : Bool)
    (x y : List α) (radius conf : α) (hne : x ≠ [])
    (hlen : x.length = y.length) :
    List.Pairwise (fun p q : α × α × ℕ => q.2.2 ≤ p.2.2)
      (sorted_count_data lg logscale x y radius) ∧
    (∃ k, confidence_points lg logscale x y radius conf
      = (sorted_points lg logscale x y radius).take k) ∧
    confidence_points lg logscale x y radius 1
      = sorted_points lg logscale x y radius := by
  refine ⟨?_, confidence_points_eq_take lg logscale x y radius conf hne hlen,
    confidence_points_conf_one lg logscale x y radius hne hlen⟩
  haveI : IsTotal (α × α × ℕ) (fun p q => q.2.2 ≤ p.2.2) :=
    ⟨fun a b => le_total b.2.2 a.2.2⟩
  haveI : IsTrans (α × α × ℕ) (fun p q => q.2.2 ≤ p.2.2) :=
    ⟨fun a b c hab hbc => le_trans hbc hab⟩
  exact List.sorted_insertionSort _ _

/-- C9: every returned count is at least 1 (each unique point is inside its
own neighborhood in either mode), hence in `confidence_hull` the cumulative
count proportions are strictly increasing and the less-than-or-equal mask
over them selects exactly a prefix of the descending-sorted points. -/
theorem count_pts_pos_and_prefix_selection (lg : α → α) (logscale : Bool)
    (x y : List α) (radius conf : α) (hne : x ≠ [])
    (hlen : x.length = y.length) :
    (∀ t ∈ count_pts_within_radius lg logscale x y radius, 1 ≤ t.2.2) ∧
    (cum_proportions lg logscale x y radius).Pairwise (· < ·) ∧
    (∃ k, confidence_points lg logscale x y radius conf
      = (sorted_points lg logscale x y radius).take k) :=
  ⟨count_pts_within_radius_pos lg logscale x y radius,
    cum_proportions_pairwise_lt lg logscale x y radius hne hlen,
    confidence_points_eq_take lg logscale x y radius conf hne hlen⟩

/-- C3: when the selected subset has fewer than 3 points, `confidence_hull`
fails with the "insufficient points for hull" error condition instead of
computing a hull: the hull step errors on any list of fewer than 3 points,
and `confidence_hull` applies it to exactly the selected subset. -/
theorem confidence_hull_insufficient_points :
    (∀ pts : List (α × α), pts.length < 3 →
      convex_hull pts = Except.error "insufficient points for hull") ∧
    ∀ (lg : α → α) (logscale : Bool) (x y : List α) (radius conf : α),
      confidence_hull lg logscale x y radius conf
        = convex_hull (confidence_points lg logscale x y radius conf) := by
  constructor
  · intro pts h
    simp only [convex_hull, if_pos h]
  · intro lg logscale x y radius conf
    rfl

/-- C10: `plot_color_by_pt_dens` passes its loglog flag through as the
logscale argument of `count_pts_within_radius`, so with loglog on the
plotted counts are the log-space neighbor counts; and the triples are
sorted ascending by count before plotting. -/
theorem plot_color_by_pt_dens_loglog (lg : α → α) (x y : List α)
    (radius : α) :
    List.Perm (plot_color_by_pt_dens lg true x y radius)
      (count_pts_within_radius lg true x y radius) ∧
    List.Pairwise (fun p q : α × α × ℕ => p.2.2 ≤ q.2.2)
      (plot_color_by_pt_dens lg true x y radius) ∧
    ∀ t ∈ plot_color_by_pt_dens lg true x y radius,
      t.2.2 = (x.zip y).countP
        (fun p => decide ((lg p.1 - lg t.1) ^ 2 + (lg p.2 - lg t.2.1) ^ 2
          ≤ lg radius ^ 2)) := by
  refine ⟨List.perm_insertionSort _ _, ?_, ?_⟩
  · haveI : IsTotal (α × α × ℕ) (fun p q => p.2.2 ≤ q.2.2) :=
      ⟨fun a b => le_total a.2.2 b.2.2⟩
    haveI : IsTrans (α × α × ℕ) (fun p q => p.2.2 ≤ q.2.2) :=
      ⟨fun a b c hab hbc => le_trans hab hbc⟩
    exact List.sorted_insertionSort _ _
  · intro t ht
    have hmem : t ∈ count_pts_within_radius lg true x y radius :=
      (List.perm_insertionSort _ _).mem_iff.mp ht
    have hc := count_pts_within_radius_count lg true x y radius t hmem
    simpa [neighbor_test] using hc

/-- Witness for C1 at a concrete input. -/
theorem count_pts_within_radius_spec_witness :
    ([(1:ℚ)] : List ℚ).length = ([(2:ℚ)] : List ℚ).length ∧
    (((count_pts_within_radius (fun v => v) false [(1:ℚ)] [(2:ℚ)] 1).map
        (fun t => (t.1, t.2.1))).Nodup ∧
      (∀ a b : ℚ,
        (∃ n, (a, b, n) ∈ count_pts_within_radius (fun v => v) false
          [(1:ℚ)] [(2:ℚ)] 1) ↔ (a, b) ∈ ([(1:ℚ)].zip [(2:ℚ)])) ∧
      (∀ t ∈ count_pts_within_radius (fun v => v) false [(1:ℚ)] [(2:ℚ)] 1,
        (false = false →
          t.2.2 = ([(1:ℚ)].zip [(2:ℚ)]).countP
            (fun p => decide ((p.1 - t.1) ^ 2 + (p.2 - t.2.1) ^ 2
              ≤ (1:ℚ) ^ 2))) ∧
        (false = true →
          t.2.2 = ([(1:ℚ)].zip [(2:ℚ)]).countP
            (fun p => decide ((p.1 - t.1) ^ 2 + (p.2 - t.2.1) ^ 2
              ≤ (1:ℚ) ^ 2))))) :=
  ⟨rfl, count_pts_within_radius_spec (fun v => v) false [(1:ℚ)] [(2:ℚ)] 1 rfl⟩

/-- Witness for C4 at a concrete input. -/
theorem get_rad_data_spec_witness :
    ([(0:ℚ), 1] : List ℚ) ≠ [] ∧ (0:ℚ) < ([(0:ℚ), 1] : List ℚ).sum ∧
    ((get_rad_data [(0:ℚ), 1]).1 = List.range' 1 ([(0:ℚ), 1] : List ℚ).length ∧
      (get_rad_data [(0:ℚ), 1]).2.length = ([(0:ℚ), 1] : List ℚ).length ∧
      List.Sorted (· ≥ ·) (get_rad_data [(0:ℚ), 1]).2 ∧
      (get_rad_data [(0:ℚ), 1]).2.sum = 1 ∧
      List.Perm (get_rad_data [(0:ℚ), 1]).2
        ([(0:ℚ), 1].map (fun v => v / ([(0:ℚ), 1] : List ℚ).sum))) :=
  ⟨by simp, by simp, get_rad_data_spec [(0:ℚ), 1] (by simp) (by simp)⟩

/-- Witness for C2 at a concrete input. -/
theorem confidence_hull_selection_witness :
    ([(1:ℚ)] : List ℚ) ≠ [] ∧
    ([(1:ℚ)] : List ℚ).length = ([(2:ℚ)] : List ℚ).length ∧
    (List.Pairwise (fun p q : ℚ × ℚ × ℕ => q.2.2 ≤ p.2.2)
        (sorted_count_data (fun v => v) false [(1:ℚ)] [(2:ℚ)] 1) ∧
      (∃ k, confidence_points (fun v => v) false [(1:ℚ)] [(2:ℚ)] 1 0
        = (sorted_points (fun v => v) false [(1:ℚ)] [(2:ℚ)] 1).take k) ∧
      confidence_points (fun v => v) false [(1:ℚ)] [(2:ℚ)] 1 1
        = sorted_points (fun v => v) false [(1:ℚ)] [(2:ℚ)] 1) :=
  ⟨by simp, rfl,
    confidence_hull_selection (fun v => v) false [(1:ℚ)] [(2:ℚ)] 1 0
      (by simp) rfl⟩

/-- Witness for C9 at a concrete input. -/
theorem count_pts_pos_and_prefix_selection_witness :
    ([(2:ℚ)] : List ℚ) ≠ [] ∧
    ([(2:ℚ)] : List ℚ).length = ([(3:ℚ)] : List ℚ).length ∧
    ((∀ t ∈ count_pts_within_radius (fun v => v) false [(2:ℚ)] [(3:ℚ)] 1,
        1 ≤ t.2.2) ∧
      (cum_proportions (fun v => v) false [(2:ℚ)] [(3:ℚ)] 1).Pairwise (· < ·) ∧
      (∃ k, confidence_points (fun v => v) false [(2:ℚ)] [(3:ℚ)] 1 0
        = (sorted_points (fun v => v) false [(2:ℚ)] [(3:ℚ)] 1).take k)) :=
  ⟨by simp, rfl,
    count_pts_pos_and_prefix_selection (fun v => v) false [(2:ℚ)] [(3:ℚ)] 1 0
      (by simp) rfl⟩

/-- Witness for C3 at a concrete input. -/
theorem confidence_hull_insufficient_points_witness :
    ([((1:ℚ), (2:ℚ))] : List (ℚ × ℚ)).length < 3 ∧
    convex_hull ([((1:ℚ), (2:ℚ))] : List (ℚ × ℚ))
      = Except.error "insufficient points for hull" :=
  ⟨by decide, confidence_hull_insufficient_points.1 [((1:ℚ), (2:ℚ))] (by decide)⟩

/-- Witness for C6 at a concrete input. -/
theorem e_var_spec_witness :
    ([5, 5, 5, 5] : List ℝ) ≠ [] ∧
    (e_var Real.log Real.arctan Real.pi ([5, 5, 5, 5] : List ℝ)
        = 1 - 2 / Real.pi * Real.arctan
            ((([5, 5, 5, 5] : List ℝ).map (fun n =>
              (Real.log n - (([5, 5, 5, 5] : List ℝ).map Real.log).sum
                / ([5, 5, 5, 5] : List ℝ).length) ^ 2)).sum
              / ([5, 5, 5, 5] : List ℝ).length) ∧
      (∀ c : ℝ, (∀ n ∈ ([5, 5, 5, 5] : List ℝ), n = c) →
        e_var Real.log Real.arctan Real.pi ([5, 5, 5, 5] : List ℝ) = 1)) :=
  ⟨by simp, e_var_spec [5, 5, 5, 5] (by simp)⟩

/-- Witness for C7 at a concrete input. -/
theorem obs_pred_rsquare_spec_witness :
    ([(1:ℚ), 2, 3] : List ℚ).length = ([(2:ℚ), 2, 2] : List ℚ).length ∧
    (∃ a ∈ ([(1:ℚ), 2, 3] : List ℚ), ∃ b ∈ ([(1:ℚ), 2, 3] : List ℚ), a ≠ b) ∧
    ((([(1:ℚ), 2, 3].map (fun o => (o - mean [(1:ℚ), 2, 3]) ^ 2)).sum ≠ 0 ∧
      obs_pred_rsquare [(1:ℚ), 2, 3] [(2:ℚ), 2, 2]
        = 1 - (∑ i ∈ Finset.range ([(1:ℚ), 2, 3] : List ℚ).length,
              (([(1:ℚ), 2, 3] : List ℚ).getD i 0
                - ([(2:ℚ), 2, 2] : List ℚ).getD i 0) ^ 2)
            / (∑ i ∈ Finset.range ([(1:ℚ), 2, 3] : List ℚ).length,
              (([(1:ℚ), 2, 3] : List ℚ).getD i 0 - mean [(1:ℚ), 2, 3]) ^ 2) ∧
      obs_pred_rsquare [(1:ℚ), 2, 3] [(1:ℚ), 2, 3] = 1 ∧
      (∀ v : List ℚ, (∀ o ∈ v, o = mean v) →
        (v.map (fun o => (o - mean v) ^ 2)).sum = 0))) :=
  ⟨rfl, ⟨1, by simp, 2, by simp, by norm_num⟩,
    obs_pred_rsquare_spec [(1:ℚ), 2, 3] [(2:ℚ), 2, 2] rfl
      ⟨1, by simp, 2, by simp, by norm_num⟩⟩

end Macroeco
